/- Verification of lapfelix/XcodeRemote (xcode_remote.py).

   Shallow embedding of the build-log parser, the build-completion polling
   loop, the derived-data lookup, the build workflow driver, and the
   constructor, together with theorems about the spec claims C1 to C10.

   Python strings are modelled as lists of characters; the filesystem,
   wall-clock polling, and process calls are modelled as explicit
   environment parameters. -/
import Mathlib

namespace XcodeRemote

/-- Characters of a Python string. -/
abbrev Str := List Char

/-- Python str.lower for ASCII letters (as used by line.lower() on log text). -/
def lowerChar (c : Char) : Char :=
  if 65 ≤ c.toNat ∧ c.toNat ≤ 90 then Char.ofNat (c.toNat + 32) else c

/-- Python s.lower(). -/
def toLowerS (s : Str) : Str := s.map lowerChar

/-- Character equality, case-insensitively when ci is true (re.IGNORECASE). -/
def charEq (ci : Bool) (a b : Char) : Bool :=
  if ci then lowerChar a == lowerChar b else a == b

/-- Prefix test with optional case-insensitivity. -/
def prefixEq (ci : Bool) : Str → Str → Bool
  | [], _ => true
  | _ :: _, [] => false
  | a :: as, b :: bs => charEq ci a b && prefixEq ci as bs

/-- Suffix test with optional case-insensitivity. -/
def suffixEq (ci : Bool) (pat s : Str) : Bool :=
  prefixEq ci pat.reverse s.reverse

/-- Python whitespace class (the regex \s class and str.strip on ASCII). -/
def isWs (c : Char) : Bool :=
  c == ' ' || c == '\t' || c == '\n' || c == '\r' ||
    c == Char.ofNat 11 || c == Char.ofNat 12

/-- The regex \d class. -/
def isDigitCh (c : Char) : Bool :=
  decide (48 ≤ c.toNat) && decide (c.toNat ≤ 57)

/-- Python s.strip(): drop leading and trailing whitespace. -/
def strip (s : Str) : Str :=
  ((s.dropWhile isWs).reverse.dropWhile isWs).reverse

/-- Drop trailing whitespace only. -/
def dropTrailingWs (s : Str) : Str :=
  (s.reverse.dropWhile isWs).reverse

/-- Python substring containment, needle in hay. -/
def containsSub (needle : Str) : Str → Bool
  | [] => needle.isEmpty
  | c :: rest => needle.isPrefixOf (c :: rest) || containsSub needle rest

/-- Split a string at its first colon: the colon-free run before it and the
remainder after it (none when no colon occurs).  This is how the regex piece
with a negated-colon class followed by a colon consumes its input. -/
def splitAtColon (s : Str) : Option (Str × Str) :=
  match s.dropWhile (· != ':') with
  | ':' :: r2 => some (s.takeWhile (· != ':'), r2)
  | _ => none

/-- Does the colon-free run end in a dot followed by one of the given
extensions, with at least one character before the dot?  This is the
backtracking result of the regex piece matching a path with extension. -/
def extOk (ci : Bool) (exts : List Str) (run : Str) : Bool :=
  exts.any (fun e => decide (e.length + 2 ≤ run.length) && suffixEq ci ('.' :: e) run)

/-- All extensions of the error and warning regexes: swift, c, cpp, h, m, mm. -/
def extsAll : List Str :=
  ["swift".toList, "c".toList, "cpp".toList, "h".toList, "m".toList, "mm".toList]

/-- Consume a line:column pair of digit runs (the regex piece with two digit
groups separated by a colon); returns the two digit groups and the rest. -/
def afterLineCol (s : Str) : Option (Str × Str × Str) :=
  let d1 := s.takeWhile isDigitCh
  if d1.isEmpty then none
  else
    match s.dropWhile isDigitCh with
    | ':' :: r2 =>
      let d2 := r2.takeWhile isDigitCh
      if d2.isEmpty then none else some (d1, d2, r2.dropWhile isDigitCh)
    | _ => none

/-- Earliest case-insensitive occurrence of tag with a nonempty remainder
after it; returns that remainder.  This is the lazy dot-star followed by the
tag and a nonempty group. -/
def findTagNE (tag : Str) : Str → Option Str
  | [] => none
  | c :: rest =>
    if prefixEq true tag (c :: rest) then
      (let after := (c :: rest).drop tag.length
       if after.isEmpty then none else some after)
    else findTagNE tag rest

/-- Result of the regex tail that skips whitespace then captures a nonempty
greedy group, applied to a nonempty remainder: the remainder without leading
whitespace, or its last character when it is all whitespace. -/
def groupAfterWs (after : Str) : Str :=
  let t := after.dropWhile isWs
  if t.isEmpty then after.drop (after.length - 1) else t

/-- One attempt, at a position just after a slash, of the located-diagnostic
regex with the given tag: path with extension, colon, line, colon, column,
lazily anything, tag, whitespace, message. -/
def tryLocTagAt (tag : Str) (rest : Str) : Option (Str × Str) :=
  match splitAtColon rest with
  | some (run, r2) =>
    if extOk true extsAll run then
      match afterLineCol r2 with
      | some (_, _, r3) =>
        match findTagNE tag r3 with
        | some after => some ('/' :: run, groupAfterWs after)
        | none => none
      | none => none
    else none
  | none => none

/-- re.search of the located-diagnostic regex (used with the error and the
warning tag, both with re.IGNORECASE): leftmost matching start position. -/
def searchLocTag (tag : Str) : Str → Option (Str × Str)
  | [] => none
  | c :: rest =>
    (if c == '/' then tryLocTagAt tag rest else none) <|> searchLocTag tag rest

/-- One attempt of the simple path regex: path with extension, colon, then a
nonempty greedy group. -/
def trySimpleAt (rest : Str) : Option (Str × Str) :=
  match splitAtColon rest with
  | some (run, r2) =>
    if extOk true extsAll run && !r2.isEmpty then some ('/' :: run, r2) else none
  | none => none

/-- re.search of the simple path regex (re.IGNORECASE). -/
def searchSimple : Str → Option (Str × Str)
  | [] => none
  | c :: rest =>
    (if c == '/' then trySimpleAt rest else none) <|> searchSimple rest

/-- Latest occurrence of pat with a nonempty remainder after it (the greedy
leading dot-star of the message-cleanup regex); returns that remainder. -/
def lastOccAfter (pat : Str) (s : Str) : Option Str :=
  match s with
  | [] => none
  | _ :: rest =>
    match lastOccAfter pat rest with
    | some r => some r
    | none =>
      if pat.isPrefixOf s then
        (let after := s.drop pat.length
         if after.isEmpty then none else some after)
      else none

/-- Group of the message-cleanup regex tail applied to a nonempty remainder:
a lazy nonempty group followed by optional whitespace at end of string, so
the remainder without trailing whitespace, or its first character when the
remainder is all whitespace. -/
def m3group (r : Str) : Str :=
  let b := dropTrailingWs r
  if b.isEmpty then r.take 1 else b

/-- Last quoted segment of a string: the content between the latest quote
that is followed by a nonempty quote-free run and a closing quote.  This is
the single replacement performed by the quote-cleanup re.sub. -/
def lastQuotedSeg (s : Str) : Option Str :=
  match s with
  | [] => none
  | c :: rest =>
    match lastQuotedSeg rest with
    | some r => some r
    | none =>
      if c == Char.ofNat 34 then
        (let seg := rest.takeWhile (fun d => d != Char.ofNat 34)
         if seg.isEmpty then none
         else if (rest.drop seg.length).isEmpty then none else some seg)
      else none

/-- The quote-cleanup re.sub: replace the whole string by the last quoted
segment when one exists, otherwise leave the string unchanged. -/
def subQuote (s : Str) : Str :=
  match lastQuotedSeg s with
  | some g => g
  | none => s

/-- Diagnostic categories of the parser. -/
inductive Cat
  | err
  | warn
  | note
deriving DecidableEq, Repr

/-- Does the lowercased line contain the explicit error tag? -/
def hasErrTag (line : Str) : Bool :=
  containsSub ("error:".toList) (toLowerS line)

/-- Does the lowercased line contain the warning tag? -/
def hasWarnTag (line : Str) : Bool :=
  containsSub ("warning:".toList) (toLowerS line)

/-- Does the lowercased line contain the note tag? -/
def hasNoteTag (line : Str) : Bool :=
  containsSub ("note:".toList) (toLowerS line)

/-- The branch of parse_build_log for lines containing the explicit error
tag: try the located-diagnostic regex, else the simple path regex followed by
the message cleanup; returns the formatted error message when one is added. -/
def errorBranch (line : Str) : Option Str :=
  match searchLocTag ("error:".toList) line with
  | some (g1, g2) => some (g1 ++ ':' :: strip g2)
  | none =>
    match searchSimple line with
    | some (fp, messagePart) =>
      let clean :=
        match lastOccAfter (fp ++ [':']) messagePart with
        | some r => strip (m3group r)
        | none =>
          let c1 := subQuote (strip messagePart)
          if c1.contains (Char.ofNat 34) then c1 else strip messagePart
      if clean.isEmpty then none else some (fp ++ ':' :: clean)
    | none => none

/-- An apostrophe character, used inside one of the Swift heuristic phrases. -/
def apos : Char := Char.ofNat 39

/-- The Swift heuristic phrases of parse_build_log. -/
def swiftPhrases : List Str :=
  ["cannot override".toList, "ambiguous use".toList,
   "overriding declaration".toList, "overriding property must be".toList,
   "conflicts with".toList, "must be unwrapped".toList,
   "requires an ".toList ++ apos :: "override".toList ++ apos :: " keyword".toList,
   "getter for".toList, "setter for".toList, "value of optional type".toList]

/-- The Objective-C heuristic phrases of parse_build_log. -/
def objcPhrases : List Str :=
  ["property".toList, "not found".toList,
   "no visible @interface".toList, "declares the selector".toList]

/-- One attempt of the location-condition regex (case-sensitive): path with
one of the given extensions, colon, digits, colon, digits, whitespace. -/
def tryLocCondAt (exts : List Str) (rest : Str) : Bool :=
  match splitAtColon rest with
  | some (run, r2) =>
    extOk false exts run &&
      (match afterLineCol r2 with
       | some (_, _, r3) =>
         (match r3 with
          | d :: _ => isWs d
          | [] => false)
       | none => false)
  | none => false

/-- re.search of the location-condition regex used as the heuristic branch
guard (no re.IGNORECASE). -/
def searchLocCond (exts : List Str) : Str → Bool
  | [] => false
  | c :: rest =>
    (c == '/' && tryLocCondAt exts rest) || searchLocCond exts rest

/-- Result of the regex tail requiring some whitespace then a nonempty greedy
group: the rest without leading whitespace when that is nonempty, else the
last whitespace character when at least two remain, else no match. -/
def wsPlusGroup (r : Str) : Option Str :=
  match r with
  | d :: _ =>
    if isWs d then
      (let t := r.dropWhile isWs
       if !t.isEmpty then some t
       else if decide (2 ≤ r.length) then some (r.drop (r.length - 1)) else none)
    else none
  | [] => none

/-- One attempt of the full heuristic regex (case-sensitive): path with one
of the given extensions, colon, line group, colon, column group, whitespace,
message group. -/
def tryLocFullAt (exts : List Str) (rest : Str) :
    Option (Str × Str × Str × Str) :=
  match splitAtColon rest with
  | some (run, r2) =>
    if extOk false exts run then
      match afterLineCol r2 with
      | some (d1, d2, r3) =>
        match wsPlusGroup r3 with
        | some msg => some ('/' :: run, d1, d2, msg)
        | none => none
      | none => none
    else none
  | none => none

/-- re.search of the full heuristic regex (no re.IGNORECASE). -/
def searchLocFull (exts : List Str) : Str → Option (Str × Str × Str × Str)
  | [] => none
  | c :: rest =>
    (if c == '/' then tryLocFullAt exts rest else none) <|> searchLocFull exts rest

/-- The guard of the Swift heuristic branch: line shorter than 1000
characters and the Swift location-condition regex matches. -/
def guardSwift (line : Str) : Bool :=
  decide (line.length < 1000) && searchLocCond ["swift".toList] line

/-- The guard of the Objective-C heuristic branch. -/
def guardObjc (line : Str) : Bool :=
  decide (line.length < 1000) && searchLocCond ["m".toList, "mm".toList] line

/-- Does the lowercased line contain one of the Swift heuristic phrases? -/
def swiftHit (line : Str) : Bool :=
  swiftPhrases.any (fun p => containsSub p (toLowerS line))

/-- Does the lowercased line contain one of the Objective-C phrases? -/
def objcHit (line : Str) : Bool :=
  objcPhrases.any (fun p => containsSub p (toLowerS line))

/-- Does the line match one of the language-specific heuristic diagnostic
conditions: a length-guarded location match together with one of the
diagnostic phrases of that language. -/
def heurMatch (line : Str) : Bool :=
  (guardSwift line && swiftHit line) || (guardObjc line && objcHit line)

/-- The Swift heuristic branch body: phrase check, then the full regex, then
the formatted error with the stripped message truncated to 200 characters. -/
def swiftBranch (line : Str) : Option Str :=
  if swiftHit line then
    match searchLocFull ["swift".toList] line with
    | some (fp, ln, col, msg) =>
      some (fp ++ ':' :: ln ++ ':' :: col ++ ' ' :: (strip msg).take 200)
    | none => none
  else none

/-- The Objective-C heuristic branch body. -/
def objcBranch (line : Str) : Option Str :=
  if objcHit line then
    match searchLocFull ["m".toList, "mm".toList] line with
    | some (fp, ln, col, msg) =>
      some (fp ++ ':' :: ln ++ ':' :: col ++ ' ' :: (strip msg).take 200)
    | none => none
  else none

/-- The warning branch body: the located-diagnostic regex with the warning
tag, formatted as path colon stripped message. -/
def warnBranch (line : Str) : Option Str :=
  match searchLocTag ("warning:".toList) line with
  | some (g1, g2) => some (g1 ++ ':' :: strip g2)
  | none => none

/-- The note branch body: the note-tag regex, stripped group. -/
def noteBranch (line : Str) : Option Str :=
  match findTagNE ("note:".toList) line with
  | some after => some (strip (groupAfterWs after))
  | none => none

/-- The per-line classification of parse_build_log: the if/elif chain over
the explicit error tag, the Swift heuristic guard, the Objective-C heuristic
guard, the warning tag and the note tag; at most one formatted entry for at
most one category. -/
def classifyLine (line : Str) : Option (Cat × Str) :=
  if hasErrTag line then (errorBranch line).map (fun m => (Cat.err, m))
  else if guardSwift line then (swiftBranch line).map (fun m => (Cat.err, m))
  else if guardObjc line then (objcBranch line).map (fun m => (Cat.err, m))
  else if hasWarnTag line then (warnBranch line).map (fun m => (Cat.warn, m))
  else if hasNoteTag line then (noteBranch line).map (fun m => (Cat.note, m))
  else none

/-- The three collections returned by parse_build_log. -/
structure ParseResult where
  errors : List Str
  warnings : List Str
  notes : List Str
deriving DecidableEq, Repr

/-- Python set.add on a list kept duplicate-free. -/
def insertNew (x : Str) (s : List Str) : List Str :=
  if x ∈ s then s else s ++ [x]

/-- Process one line of the log: add the formatted entry of its category. -/
def applyLine (acc : ParseResult) (line : Str) : ParseResult :=
  match classifyLine line with
  | some (Cat.err, m) => { acc with errors := insertNew m acc.errors }
  | some (Cat.warn, m) => { acc with warnings := insertNew m acc.warnings }
  | some (Cat.note, m) => { acc with notes := insertNew m acc.notes }
  | none => acc

/-- Fold of the per-line classification over the lines of the log. -/
def parseLines (lines : List Str) : ParseResult :=
  lines.foldl applyLine ⟨[], [], []⟩

/-- parse_build_log: the read and gunzip of the log file is modelled as an
optional decompressed content, none when the read raises (missing file,
unreadable file, invalid gzip data); the exception handler leaves all three
collections empty in that case, else the content is split on newlines and
each line classified. -/
def parse_build_log (content : Option Str) : ParseResult :=
  match content with
  | none => ⟨[], [], []⟩
  | some c => parseLines (List.splitOn '\n' c)

/-- An observation of the newest build log: its path and its modification
time in whole epoch seconds. -/
structure LogObs where
  path : Str
  mtime : Nat
deriving DecidableEq, Repr

/-- Result of wait_for_build_completion: the (completed, success) pair it
returns, together with the second at which the loop stopped. -/
structure WaitOut where
  completed : Bool
  success : Bool
  tEnd : Nat
deriving DecidableEq, Repr

/-- The build-started condition of the first loop: a current log exists and
either there was no initial log, or the current log is a different file, or
its modification time is after the initial wall-clock time. -/
def buildStarted (initialLog : Option Str) (initialTime : Nat)
    (obs : Option LogObs) : Bool :=
  match obs with
  | none => false
  | some cur =>
    match initialLog with
    | none => true
    | some ip => !(cur.path == ip) || decide (initialTime < cur.mtime)

/-- The second loop of wait_for_build_completion.  Polling happens once per
second, so the loop body at wall-clock second u checks u against the
timeout, reads the newest log, and tracks how many consecutive polls saw an
unchanged modification time; at three it returns completed together with
the success flag computed by parsing the current log. -/
def phase2Aux (trace : Nat → Option LogObs) (readLog : Str → Option Str)
    (timeout : Nat) (u lastModified stableCount : Nat) : WaitOut :=
  if u < timeout then
    match trace u with
    | some cur =>
      if cur.mtime == lastModified then
        (if 3 ≤ stableCount + 1 then
          ⟨true, ((parse_build_log (readLog cur.path)).errors).isEmpty, u⟩
        else phase2Aux trace readLog timeout (u + 1) lastModified (stableCount + 1))
      else phase2Aux trace readLog timeout (u + 1) cur.mtime 0
    | none => phase2Aux trace readLog timeout (u + 1) lastModified stableCount
  else ⟨false, false, u⟩
termination_by timeout - u
decreasing_by all_goals omega

/-- wait_for_build_completion.  The environment is the poll function trace
(the value of get_latest_build_log at each second since the call), the log
reader used by the embedded parse, and the wall-clock epoch second at which
the wait began.  The initial log is the poll at second zero; the first loop
scans the seconds below the timeout for the build-started condition and
returns (False, False) when none satisfies it; the second loop then watches
for a stable modification time. -/
def wait_for_build_completion (timeout epoch0 : Nat)
    (trace : Nat → Option LogObs) (readLog : Str → Option Str) : WaitOut :=
  match (List.range timeout).find?
      (fun t => buildStarted ((trace 0).map LogObs.path) epoch0 (trace t)) with
  | none => ⟨false, false, timeout⟩
  | some b => phase2Aux trace readLog timeout b 0 0

/-- A directory entry with a modification time. -/
structure FileEntry where
  name : Str
  mtime : Nat
deriving DecidableEq, Repr

/-- A DerivedData directory matching the project glob, with its Logs/Build
subdirectory state and its activity-log files. -/
structure DerivedDataDir where
  name : Str
  mtime : Nat
  logsBuildExists : Bool
  logFiles : List FileEntry
deriving DecidableEq, Repr

/-- The filesystem as seen by find_project_derived_data: the directories the
project glob pattern matches under the DerivedData root. -/
structure DerivedDataFS where
  projectMatches : List DerivedDataDir

/-- Python max(list, key) on a nonempty list: keep the first element among
those with the greatest key. -/
def maxByKey {α : Type} (key : α → Nat) : List α → Option α
  | [] => none
  | x :: xs => some (xs.foldl (fun best e => if key best < key e then e else best) x)

/-- find_project_derived_data: the glob match with the greatest modification
time, none when the glob matches nothing. -/
def find_project_derived_data (fs : DerivedDataFS) : Option DerivedDataDir :=
  maxByKey DerivedDataDir.mtime fs.projectMatches

/-- get_latest_build_log: none without a derived-data directory or without
its Logs/Build subdirectory, else the activity-log file with the greatest
modification time (none when there are no such files). -/
def get_latest_build_log (fs : DerivedDataFS) : Option FileEntry :=
  match find_project_derived_data fs with
  | none => none
  | some dd =>
    if !dd.logsBuildExists then none
    else maxByKey FileEntry.mtime dd.logFiles

/-- The externally visible steps of the build workflow. -/
inductive Step
  | openStep
  | triggerStep
  | waitStep
  | parseStep
deriving DecidableEq, Repr

/-- Environment of the build workflow: whether the frontmost-app query says
Xcode is already active (false also models a failing query), whether the
open and trigger AppleScript calls succeed, and the polling environment of
wait_for_build_completion.  The poll function also serves as the
get_latest_build_log call made after the wait. -/
structure BuildWorld where
  frontmostIsXcode : Bool
  openOk : Bool
  triggerOk : Bool
  timeout : Nat
  epoch0 : Nat
  trace : Nat → Option LogObs
  readLog : Str → Option Str

/-- build: open the project when Xcode is not frontmost, trigger the
keystroke, wait for completion, then fetch and parse the newest log; the
returned list records which steps ran.  Failure of an earlier step returns
False at once. -/
def build (w : BuildWorld) : Bool × List Step :=
  let s0 : List Step := if w.frontmostIsXcode then [] else [Step.openStep]
  if !w.frontmostIsXcode && !w.openOk then (false, [Step.openStep])
  else if !w.triggerOk then (false, s0 ++ [Step.triggerStep])
  else
    let wres := wait_for_build_completion w.timeout w.epoch0 w.trace w.readLog
    let s1 := s0 ++ [Step.triggerStep, Step.waitStep]
    if !wres.completed then (false, s1)
    else
      match w.trace wres.tEnd with
      | some log =>
        (((parse_build_log (w.readLog log.path)).errors).isEmpty,
          s1 ++ [Step.parseStep])
      | none => (wres.success, s1)

/-- The filesystem as seen by the constructor: path resolution and an
existence test. -/
structure PathFS where
  resolvePath : Str → Str
  pathExists : Str → Bool

/-- The last path component (pathlib name) of a resolved path. -/
def pathName (p : Str) : Str :=
  (List.splitOn '/' p).getLastD []

/-- Index of the last dot of a name (Python str.rfind). -/
def rfindDot (n : Str) : Option Nat :=
  (n.reverse.findIdx? (fun c => c == '.')).map (fun j => n.length - 1 - j)

/-- pathlib stem of a name: cut at the last dot when that dot is neither the
first nor the last character, else the whole name. -/
def stemOfName (n : Str) : Str :=
  match rfindDot n with
  | some i => if 0 < i ∧ i < n.length - 1 then n.take i else n
  | none => n

/-- pathlib Path.stem of a resolved path. -/
def pathStem (p : Str) : Str := stemOfName (pathName p)

/-- The constructor: resolve the project path, raise FileNotFoundError when
it does not exist, else record the resolved path and the project name (the
stem of the resolved path). -/
def xcodeRemoteInit (fs : PathFS) (projectPath : Str) : Except Str (Str × Str) :=
  let rp := fs.resolvePath projectPath
  if fs.pathExists rp then Except.ok (rp, pathStem rp)
  else Except.error (("Project path does not exist: ").toList ++ projectPath)

/-- C8: parse_build_log is total at its public interface: every read outcome
yields a record with exactly the three collections of strings, and a failed
read (missing file, unreadable file, invalid gzip data) yields three empty
lists. -/
theorem C8_parse_total :
    parse_build_log none = ⟨[], [], []⟩ ∧
    ∀ r : Option Str, ∃ e w n : List Str, parse_build_log r = ⟨e, w, n⟩ :=
  ⟨rfl, fun r => ⟨(parse_build_log r).errors, (parse_build_log r).warnings,
    (parse_build_log r).notes, rfl⟩⟩

/-- C10: the constructor raises FileNotFoundError exactly when the resolved
project path does not exist; when it exists, construction succeeds and the
project name is the stem of the resolved path. -/
theorem C10_init_characterization (fs : PathFS) (p : Str) :
    ((∃ msg, xcodeRemoteInit fs p = Except.error msg) ↔
      fs.pathExists (fs.resolvePath p) = false) ∧
    (fs.pathExists (fs.resolvePath p) = true →
      xcodeRemoteInit fs p =
        Except.ok (fs.resolvePath p, pathStem (fs.resolvePath p))) := by
  unfold xcodeRemoteInit
  cases h : fs.pathExists (fs.resolvePath p) <;> simp [h]

/-- Witness for C10 at a concrete filesystem and path. -/
theorem C10_init_characterization_witness :
    xcodeRemoteInit ⟨fun s => s, fun _ => true⟩ (("/tmp/Proj.xcodeproj").toList) =
      Except.ok ((("/tmp/Proj.xcodeproj").toList), (("Proj").toList)) := by
  have h := (C10_init_characterization ⟨fun s => s, fun _ => true⟩
    (("/tmp/Proj.xcodeproj").toList)).2 rfl
  rw [h]
  simp only [Except.ok.injEq, Prod.mk.injEq]
  exact ⟨trivial, by decide⟩

/-- Python max with a key keeps an element of the list. -/
theorem maxByKey_foldl_mem {α : Type} (key : α → Nat) (l : List α) (a : α) :
    l.foldl (fun best e => if key best < key e then e else best) a = a ∨
    l.foldl (fun best e => if key best < key e then e else best) a ∈ l := by
  induction l generalizing a with
  | nil => exact Or.inl rfl
  | cons x xs ih =>
    rw [List.foldl_cons]
    rcases ih (if key a < key x then x else a) with h | h
    · by_cases hc : key a < key x
      · right
        rw [h, if_pos hc]
        exact List.mem_cons_self x xs
      · left
        rw [h, if_neg hc]
    · right
      exact List.mem_cons_of_mem _ h

/-- Python max with a key dominates the start value and the list. -/
theorem maxByKey_foldl_ge {α : Type} (key : α → Nat) (l : List α) (a : α) :
    key a ≤ key (l.foldl (fun best e => if key best < key e then e else best) a) ∧
    ∀ b ∈ l, key b ≤ key (l.foldl (fun best e => if key best < key e then e else best) a) := by
  induction l generalizing a with
  | nil => simp
  | cons x xs ih =>
    rw [List.foldl_cons]
    have h := ih (if key a < key x then x else a)
    have hax : key a ≤ key (if key a < key x then x else a) := by
      by_cases hc : key a < key x
      · rw [if_pos hc]; omega
      · rw [if_neg hc]
    have hxx : key x ≤ key (if key a < key x then x else a) := by
      by_cases hc : key a < key x
      · rw [if_pos hc]
      · rw [if_neg hc]; omega
    refine ⟨le_trans hax h.1, ?_⟩
    intro b hb
    rcases List.mem_cons.mp hb with rfl | hb2
    · exact le_trans hxx h.1
    · exact h.2 b hb2

/-- maxByKey yields an element of the list. -/
theorem maxByKey_mem {α : Type} (key : α → Nat) (l : List α) (x : α)
    (h : maxByKey key l = some x) : x ∈ l := by
  cases l with
  | nil => exact absurd h (by simp [maxByKey])
  | cons a as =>
    unfold maxByKey at h
    injection h with h
    rcases maxByKey_foldl_mem key as a with h2 | h2
    · rw [← h, h2]; exact List.mem_cons_self a as
    · rw [← h]; exact List.mem_cons_of_mem _ h2

/-- maxByKey dominates every element of the list. -/
theorem maxByKey_ge {α : Type} (key : α → Nat) (l : List α) (x : α)
    (h : maxByKey key l = some x) : ∀ b ∈ l, key b ≤ key x := by
  cases l with
  | nil => simp
  | cons a as =>
    unfold maxByKey at h
    injection h with h
    intro b hb
    have h2 := maxByKey_foldl_ge key as a
    rcases List.mem_cons.mp hb with rfl | hb2
    · rw [← h]; exact h2.1
    · rw [← h]; exact h2.2 b hb2

/-- maxByKey is some exactly on nonempty lists. -/
theorem maxByKey_isSome {α : Type} (key : α → Nat) (l : List α) (h : l ≠ []) :
    ∃ x, maxByKey key l = some x := by
  cases l with
  | nil => exact absurd rfl h
  | cons a as => exact ⟨_, rfl⟩

/-- C6: get_latest_build_log returns none when no DerivedData directory
matches, when the chosen directory lacks Logs/Build, or when it holds no
activity log; otherwise it returns a log file of the chosen directory with
the greatest modification time. -/
theorem C6_latest_log (fs : DerivedDataFS) :
    (fs.projectMatches = [] → get_latest_build_log fs = none) ∧
    (∀ dd, find_project_derived_data fs = some dd →
      ((dd.logsBuildExists = false → get_latest_build_log fs = none) ∧
       (dd.logFiles = [] → get_latest_build_log fs = none) ∧
       (∀ e, get_latest_build_log fs = some e →
          e ∈ dd.logFiles ∧ ∀ f ∈ dd.logFiles, f.mtime ≤ e.mtime) ∧
       (dd.logsBuildExists = true → dd.logFiles ≠ [] →
          ∃ e, get_latest_build_log fs = some e))) := by
  constructor
  · intro h
    unfold get_latest_build_log find_project_derived_data
    rw [h]
    rfl
  · intro dd hdd
    have hg : get_latest_build_log fs =
        if !dd.logsBuildExists then none else maxByKey FileEntry.mtime dd.logFiles := by
      unfold get_latest_build_log
      rw [hdd]
    refine ⟨?_, ?_, ?_, ?_⟩
    · intro h
      rw [hg, h]
      rfl
    · intro h
      rw [hg, h]
      cases hb : dd.logsBuildExists <;> simp [maxByKey]
    · intro e he
      rw [hg] at he
      cases hb : dd.logsBuildExists
      · rw [hb] at he
        exact absurd he (by simp)
      · rw [hb] at he
        simp only [Bool.not_true, if_false] at he
        exact ⟨maxByKey_mem _ _ _ he, maxByKey_ge _ _ _ he⟩
    · intro hb hne
      rw [hg, hb]
      simpa using maxByKey_isSome FileEntry.mtime dd.logFiles hne

/-- Witness for C6 at a concrete filesystem. -/
theorem C6_latest_log_witness :
    get_latest_build_log
      ⟨[⟨("P-abc").toList, 7, true,
         [⟨("a.xcactivitylog").toList, 3⟩, ⟨("b.xcactivitylog").toList, 9⟩]⟩]⟩ =
      some ⟨("b.xcactivitylog").toList, 9⟩ ∧
    (⟨("b.xcactivitylog").toList, 9⟩ : FileEntry) ∈
      [⟨("a.xcactivitylog").toList, 3⟩, (⟨("b.xcactivitylog").toList, 9⟩ : FileEntry)] := by
  refine ⟨by decide, ?_⟩
  have h := (C6_latest_log ⟨[⟨("P-abc").toList, 7, true,
      [⟨("a.xcactivitylog").toList, 3⟩, ⟨("b.xcactivitylog").toList, 9⟩]⟩]⟩).2
    ⟨("P-abc").toList, 7, true,
      [⟨("a.xcactivitylog").toList, 3⟩, ⟨("b.xcactivitylog").toList, 9⟩]⟩
    (by decide)
  exact (h.2.2.1 ⟨("b.xcactivitylog").toList, 9⟩ (by decide)).1

/-- C4: when every poll before the timeout still sees the initial state (no
new log appears and no log is modified after the initial wall-clock time),
wait_for_build_completion reports non-completion. -/
theorem C4_timeout_no_build (timeout epoch0 : Nat) (trace : Nat → Option LogObs)
    (readLog : Str → Option Str)
    (hsame : ∀ t, t < timeout → trace t = trace 0)
    (hold : ∀ l, trace 0 = some l → l.mtime ≤ epoch0) :
    (wait_for_build_completion timeout epoch0 trace readLog).completed = false := by
  unfold wait_for_build_completion
  have hfind : (List.range timeout).find?
      (fun t => buildStarted ((trace 0).map LogObs.path) epoch0 (trace t)) = none := by
    rw [List.find?_eq_none]
    intro t ht
    rw [List.mem_range] at ht
    rw [hsame t ht]
    cases h0 : trace 0 with
    | none => simp [buildStarted]
    | some l =>
      have hle := hold l h0
      simp only [buildStarted, Option.map_some', Bool.not_eq_true]
      rw [Bool.or_eq_false_iff]
      constructor
      · simp
      · simpa using Nat.not_lt.mpr hle
  rw [hfind]

/-- Witness for C4 at a concrete environment with no log at all. -/
theorem C4_timeout_no_build_witness :
    (wait_for_build_completion 2 0 (fun _ => none) (fun _ => none)).completed = false :=
  C4_timeout_no_build 2 0 (fun _ => none) (fun _ => none)
    (fun _ _ => rfl) (fun l hl => by cases hl)

/-- The Swift heuristic branch adds nothing without a phrase hit. -/
theorem swiftBranch_none_of_no_hit (line : Str) (h : swiftHit line = false) :
    swiftBranch line = none := by
  simp [swiftBranch, h]

/-- The Objective-C heuristic branch adds nothing without a phrase hit. -/
theorem objcBranch_none_of_no_hit (line : Str) (h : objcHit line = false) :
    objcBranch line = none := by
  simp [objcBranch, h]

/-- C2: every line adds at most one entry to at most one of the three
collections, and the chosen category follows the ordered precedence:
explicit error tag, then the language-specific heuristic diagnostics, then
the warning tag, then the note tag. -/
theorem C2_one_entry_precedence (line : Str) :
    (∀ acc : ParseResult,
      applyLine acc line = acc ∨
      (∃ m, applyLine acc line = { acc with errors := acc.errors ++ [m] }) ∨
      (∃ m, applyLine acc line = { acc with warnings := acc.warnings ++ [m] }) ∨
      (∃ m, applyLine acc line = { acc with notes := acc.notes ++ [m] })) ∧
    (∀ c m, classifyLine line = some (c, m) →
      (hasErrTag line = true → c = Cat.err) ∧
      (hasErrTag line = false → heurMatch line = true → c = Cat.err) ∧
      (hasErrTag line = false → heurMatch line = false → hasWarnTag line = true →
        c = Cat.warn) ∧
      (hasErrTag line = false → heurMatch line = false → hasWarnTag line = false →
        c = Cat.note)) := by
  constructor
  · intro acc
    cases hc : classifyLine line with
    | none =>
      have ha : applyLine acc line = acc := by
        unfold applyLine
        rw [hc]
      exact Or.inl ha
    | some cm =>
      obtain ⟨c, m⟩ := cm
      cases c
      · have ha : applyLine acc line = { acc with errors := insertNew m acc.errors } := by
          unfold applyLine
          rw [hc]
        rw [ha]
        unfold insertNew
        by_cases hm : m ∈ acc.errors
        · rw [if_pos hm]
          exact Or.inl rfl
        · rw [if_neg hm]
          exact Or.inr (Or.inl ⟨m, rfl⟩)
      · have ha : applyLine acc line = { acc with warnings := insertNew m acc.warnings } := by
          unfold applyLine
          rw [hc]
        rw [ha]
        unfold insertNew
        by_cases hm : m ∈ acc.warnings
        · rw [if_pos hm]
          exact Or.inl rfl
        · rw [if_neg hm]
          exact Or.inr (Or.inr (Or.inl ⟨m, rfl⟩))
      · have ha : applyLine acc line = { acc with notes := insertNew m acc.notes } := by
          unfold applyLine
          rw [hc]
        rw [ha]
        unfold insertNew
        by_cases hm : m ∈ acc.notes
        · rw [if_pos hm]
          exact Or.inl rfl
        · rw [if_neg hm]
          exact Or.inr (Or.inr (Or.inr ⟨m, rfl⟩))
  · intro c m hcm
    refine ⟨?_, ?_, ?_, ?_⟩
    · intro hE
      simp only [classifyLine, hE, if_true] at hcm
      obtain ⟨a, _, hfa⟩ := Option.map_eq_some'.mp hcm
      exact (Prod.mk.injEq _ _ _ _ ▸ hfa).1.symm ▸ rfl
    · intro hE hH
      simp only [classifyLine, hE, Bool.false_eq_true, if_false] at hcm
      by_cases gS : guardSwift line = true
      · simp only [gS, if_true] at hcm
        obtain ⟨a, _, hfa⟩ := Option.map_eq_some'.mp hcm
        exact (Prod.mk.injEq _ _ _ _ ▸ hfa).1.symm ▸ rfl
      · rw [Bool.not_eq_true] at gS
        simp only [gS, Bool.false_eq_true, if_false] at hcm
        by_cases gO : guardObjc line = true
        · simp only [gO, if_true] at hcm
          obtain ⟨a, _, hfa⟩ := Option.map_eq_some'.mp hcm
          exact (Prod.mk.injEq _ _ _ _ ▸ hfa).1.symm ▸ rfl
        · rw [Bool.not_eq_true] at gO
          unfold heurMatch at hH
          rw [gS, gO] at hH
          simp at hH
    · intro hE hH hW
      simp only [classifyLine, hE, Bool.false_eq_true, if_false] at hcm
      by_cases gS : guardSwift line = true
      · have hhit : swiftHit line = false := by
          unfold heurMatch at hH
          rw [gS] at hH
          rcases Bool.or_eq_false_iff.mp hH with ⟨h1, _⟩
          simpa using h1
        rw [swiftBranch_none_of_no_hit line hhit] at hcm
        simp only [gS, if_true, Option.map_none'] at hcm
        cases hcm
      · rw [Bool.not_eq_true] at gS
        simp only [gS, Bool.false_eq_true, if_false] at hcm
        by_cases gO : guardObjc line = true
        · have hhit : objcHit line = false := by
            unfold heurMatch at hH
            rw [gO] at hH
            rcases Bool.or_eq_false_iff.mp hH with ⟨_, h2⟩
            simpa using h2
          rw [objcBranch_none_of_no_hit line hhit] at hcm
          simp only [gO, if_true, Option.map_none'] at hcm
          cases hcm
        · rw [Bool.not_eq_true] at gO
          simp only [gO, Bool.false_eq_true, if_false, hW, if_true] at hcm
          obtain ⟨a, _, hfa⟩ := Option.map_eq_some'.mp hcm
          exact (Prod.mk.injEq _ _ _ _ ▸ hfa).1.symm ▸ rfl
    · intro hE hH hW
      simp only [classifyLine, hE, Bool.false_eq_true, if_false] at hcm
      by_cases gS : guardSwift line = true
      · have hhit : swiftHit line = false := by
          unfold heurMatch at hH
          rw [gS] at hH
          rcases Bool.or_eq_false_iff.mp hH with ⟨h1, _⟩
          simpa using h1
        rw [swiftBranch_none_of_no_hit line hhit] at hcm
        simp only [gS, if_true, Option.map_none'] at hcm
        cases hcm
      · rw [Bool.not_eq_true] at gS
        simp only [gS, Bool.false_eq_true, if_false] at hcm
        by_cases gO : guardObjc line = true
        · have hhit : objcHit line = false := by
            unfold heurMatch at hH
            rw [gO] at hH
            rcases Bool.or_eq_false_iff.mp hH with ⟨_, h2⟩
            simpa using h2
          rw [objcBranch_none_of_no_hit line hhit] at hcm
          simp only [gO, if_true, Option.map_none'] at hcm
          cases hcm
        · rw [Bool.not_eq_true] at gO
          simp only [gO, Bool.false_eq_true, if_false, hW] at hcm
          by_cases hN : hasNoteTag line = true
          · simp only [hN, if_true] at hcm
            obtain ⟨a, _, hfa⟩ := Option.map_eq_some'.mp hcm
            exact (Prod.mk.injEq _ _ _ _ ▸ hfa).1.symm ▸ rfl
          · rw [Bool.not_eq_true] at hN
            simp only [hN, Bool.false_eq_true, if_false] at hcm
            cases hcm

/-- Witness for C2 at a concrete note line and an empty accumulator. -/
theorem C2_one_entry_precedence_witness :
    (applyLine ⟨[], [], []⟩ (("note: done").toList) = ⟨[], [], []⟩ ∨
      (∃ m, applyLine ⟨[], [], []⟩ (("note: done").toList) =
        { ParseResult.mk [] [] [] with errors := [] ++ [m] }) ∨
      (∃ m, applyLine ⟨[], [], []⟩ (("note: done").toList) =
        { ParseResult.mk [] [] [] with warnings := [] ++ [m] }) ∨
      (∃ m, applyLine ⟨[], [], []⟩ (("note: done").toList) =
        { ParseResult.mk [] [] [] with notes := [] ++ [m] })) ∧
    Cat.note = Cat.note := by
  refine ⟨(C2_one_entry_precedence (("note: done").toList)).1 ⟨[], [], []⟩, ?_⟩
  exact ((C2_one_entry_precedence (("note: done").toList)).2 Cat.note (("done").toList)
    (by decide)).2.2.2 (by decide) (by decide) (by decide)

/-- C9: without an explicit error tag, an error entry can only come from the
heuristic branches, which require a line shorter than 1000 characters and
truncate the message after the file line column prefix to 200 characters. -/
theorem C9_heuristic_bounds (line m : Str)
    (h1 : hasErrTag line = false)
    (h2 : classifyLine line = some (Cat.err, m)) :
    line.length < 1000 ∧
    ∃ fp ln col tail, m = fp ++ ':' :: ln ++ ':' :: col ++ ' ' :: tail ∧
      tail.length ≤ 200 := by
  simp only [classifyLine, h1, Bool.false_eq_true, if_false] at h2
  by_cases gS : guardSwift line = true
  · have hlen : line.length < 1000 := by
      unfold guardSwift at gS
      rw [Bool.and_eq_true] at gS
      exact of_decide_eq_true gS.1
    refine ⟨hlen, ?_⟩
    simp only [gS, if_true] at h2
    obtain ⟨a, ha, hfa⟩ := Option.map_eq_some'.mp h2
    have ham : a = m := ((Prod.mk.injEq _ _ _ _).mp hfa).2
    unfold swiftBranch at ha
    by_cases hh : swiftHit line = true
    · rw [hh] at ha
      simp only [if_true] at ha
      cases hfull : searchLocFull [("swift").toList] line with
      | none => rw [hfull] at ha; cases ha
      | some v =>
        obtain ⟨fp, ln, col, msg⟩ := v
        rw [hfull] at ha
        injection ha with ha
        refine ⟨fp, ln, col, (strip msg).take 200, ?_, ?_⟩
        · rw [← ham, ← ha]
        · rw [List.length_take]
          exact Nat.min_le_left _ _
    · rw [Bool.not_eq_true] at hh
      rw [hh] at ha
      simp at ha
  · rw [Bool.not_eq_true] at gS
    simp only [gS, Bool.false_eq_true, if_false] at h2
    by_cases gO : guardObjc line = true
    · have hlen : line.length < 1000 := by
        unfold guardObjc at gO
        rw [Bool.and_eq_true] at gO
        exact of_decide_eq_true gO.1
      refine ⟨hlen, ?_⟩
      simp only [gO, if_true] at h2
      obtain ⟨a, ha, hfa⟩ := Option.map_eq_some'.mp h2
      have ham : a = m := ((Prod.mk.injEq _ _ _ _).mp hfa).2
      unfold objcBranch at ha
      by_cases hh : objcHit line = true
      · rw [hh] at ha
        simp only [if_true] at ha
        cases hfull : searchLocFull [("m").toList, ("mm").toList] line with
        | none => rw [hfull] at ha; cases ha
        | some v =>
          obtain ⟨fp, ln, col, msg⟩ := v
          rw [hfull] at ha
          injection ha with ha
          refine ⟨fp, ln, col, (strip msg).take 200, ?_, ?_⟩
          · rw [← ham, ← ha]
          · rw [List.length_take]
            exact Nat.min_le_left _ _
      · rw [Bool.not_eq_true] at hh
        rw [hh] at ha
        simp at ha
    · rw [Bool.not_eq_true] at gO
      simp only [gO, Bool.false_eq_true, if_false] at h2
      by_cases hW : hasWarnTag line = true
      · simp only [hW, if_true] at h2
        obtain ⟨a, _, hfa⟩ := Option.map_eq_some'.mp h2
        cases ((Prod.mk.injEq _ _ _ _).mp hfa).1
      · rw [Bool.not_eq_true] at hW
        simp only [hW, Bool.false_eq_true, if_false] at h2
        by_cases hN : hasNoteTag line = true
        · simp only [hN, if_true] at h2
          obtain ⟨a, _, hfa⟩ := Option.map_eq_some'.mp h2
          cases ((Prod.mk.injEq _ _ _ _).mp hfa).1
        · rw [Bool.not_eq_true] at hN
          simp only [hN, Bool.false_eq_true, if_false] at h2
          cases h2

/-- Witness for C9 at a concrete Swift heuristic line. -/
theorem C9_heuristic_bounds_witness :
    hasErrTag (("/a.swift:1:2 cannot override foo").toList) = false ∧
    (("/a.swift:1:2 cannot override foo").toList).length < 1000 := by
  refine ⟨by decide, ?_⟩
  exact (C9_heuristic_bounds (("/a.swift:1:2 cannot override foo").toList)
    (("/a.swift:1:2 cannot override foo").toList) (by decide) (by decide)).1

/-- Membership in the deduplicating insertion. -/
theorem mem_insertNew (x y : Str) (s : List Str) :
    y ∈ insertNew x s ↔ y = x ∨ y ∈ s := by
  unfold insertNew
  by_cases hx : x ∈ s
  · rw [if_pos hx]
    constructor
    · exact Or.inr
    · rintro (rfl | h)
      · exact hx
      · exact h
  · rw [if_neg hx]
    rw [List.mem_append, List.mem_singleton]
    exact ⟨fun h => h.elim Or.inr Or.inl, fun h => h.elim Or.inr Or.inl⟩

/-- The deduplicating insertion preserves the absence of duplicates. -/
theorem nodup_insertNew (x : Str) (s : List Str) (h : s.Nodup) :
    (insertNew x s).Nodup := by
  unfold insertNew
  by_cases hx : x ∈ s
  · rw [if_pos hx]
    exact h
  · rw [if_neg hx]
    rw [List.nodup_append]
    refine ⟨h, List.nodup_singleton x, ?_⟩
    intro a ha hax
    rw [List.mem_singleton] at hax
    subst hax
    exact hx ha

/-- One parse step preserves the absence of duplicates in all collections. -/
theorem applyLine_nodup (acc : ParseResult) (a : Str)
    (h1 : acc.errors.Nodup) (h2 : acc.warnings.Nodup) (h3 : acc.notes.Nodup) :
    (applyLine acc a).errors.Nodup ∧ (applyLine acc a).warnings.Nodup ∧
      (applyLine acc a).notes.Nodup := by
  unfold applyLine
  cases hc : classifyLine a with
  | none => exact ⟨h1, h2, h3⟩
  | some cm =>
    obtain ⟨c, mm⟩ := cm
    cases c
    · exact ⟨nodup_insertNew _ _ h1, h2, h3⟩
    · exact ⟨h1, nodup_insertNew _ _ h2, h3⟩
    · exact ⟨h1, h2, nodup_insertNew _ _ h3⟩

/-- The parse fold keeps all three collections duplicate-free. -/
theorem parse_foldl_nodup (ls : List Str) (acc : ParseResult)
    (h1 : acc.errors.Nodup) (h2 : acc.warnings.Nodup) (h3 : acc.notes.Nodup) :
    (ls.foldl applyLine acc).errors.Nodup ∧
    (ls.foldl applyLine acc).warnings.Nodup ∧
    (ls.foldl applyLine acc).notes.Nodup := by
  induction ls generalizing acc with
  | nil => exact ⟨h1, h2, h3⟩
  | cons a as ih =>
    rw [List.foldl_cons]
    obtain ⟨n1, n2, n3⟩ := applyLine_nodup acc a h1 h2 h3
    exact ih (applyLine acc a) n1 n2 n3

/-- One parse step, seen on the errors collection. -/
theorem applyLine_mem_errors (acc : ParseResult) (a x : Str) :
    x ∈ (applyLine acc a).errors ↔
      x ∈ acc.errors ∨ classifyLine a = some (Cat.err, x) := by
  cases hc : classifyLine a with
  | none =>
    have ha : applyLine acc a = acc := by
      unfold applyLine
      rw [hc]
    rw [ha]
    simp [hc]
  | some cm =>
    obtain ⟨c, mm⟩ := cm
    cases c
    · have ha : applyLine acc a = { acc with errors := insertNew mm acc.errors } := by
        unfold applyLine
        rw [hc]
      rw [ha]
      simp only [mem_insertNew, hc, Option.some.injEq, Prod.mk.injEq, true_and]
      constructor
      · rintro (rfl | h)
        · exact Or.inr rfl
        · exact Or.inl h
      · rintro (h | rfl)
        · exact Or.inr h
        · exact Or.inl rfl
    · have ha : applyLine acc a = { acc with warnings := insertNew mm acc.warnings } := by
        unfold applyLine
        rw [hc]
      rw [ha]
      simp [hc]
    · have ha : applyLine acc a = { acc with notes := insertNew mm acc.notes } := by
        unfold applyLine
        rw [hc]
      rw [ha]
      simp [hc]

/-- One parse step, seen on the warnings collection. -/
theorem applyLine_mem_warnings (acc : ParseResult) (a x : Str) :
    x ∈ (applyLine acc a).warnings ↔
      x ∈ acc.warnings ∨ classifyLine a = some (Cat.warn, x) := by
  cases hc : classifyLine a with
  | none =>
    have ha : applyLine acc a = acc := by
      unfold applyLine
      rw [hc]
    rw [ha]
    simp [hc]
  | some cm =>
    obtain ⟨c, mm⟩ := cm
    cases c
    · have ha : applyLine acc a = { acc with errors := insertNew mm acc.errors } := by
        unfold applyLine
        rw [hc]
      rw [ha]
      simp [hc]
    · have ha : applyLine acc a = { acc with warnings := insertNew mm acc.warnings } := by
        unfold applyLine
        rw [hc]
      rw [ha]
      simp only [mem_insertNew, hc, Option.some.injEq, Prod.mk.injEq, true_and]
      constructor
      · rintro (rfl | h)
        · exact Or.inr rfl
        · exact Or.inl h
      · rintro (h | rfl)
        · exact Or.inr h
        · exact Or.inl rfl
    · have ha : applyLine acc a = { acc with notes := insertNew mm acc.notes } := by
        unfold applyLine
        rw [hc]
      rw [ha]
      simp [hc]

/-- One parse step, seen on the notes collection. -/
theorem applyLine_mem_notes (acc : ParseResult) (a x : Str) :
    x ∈ (applyLine acc a).notes ↔
      x ∈ acc.notes ∨ classifyLine a = some (Cat.note, x) := by
  cases hc : classifyLine a with
  | none =>
    have ha : applyLine acc a = acc := by
      unfold applyLine
      rw [hc]
    rw [ha]
    simp [hc]
  | some cm =>
    obtain ⟨c, mm⟩ := cm
    cases c
    · have ha : applyLine acc a = { acc with errors := insertNew mm acc.errors } := by
        unfold applyLine
        rw [hc]
      rw [ha]
      simp [hc]
    · have ha : applyLine acc a = { acc with warnings := insertNew mm acc.warnings } := by
        unfold applyLine
        rw [hc]
      rw [ha]
      simp [hc]
    · have ha : applyLine acc a = { acc with notes := insertNew mm acc.notes } := by
        unfold applyLine
        rw [hc]
      rw [ha]
      simp only [mem_insertNew, hc, Option.some.injEq, Prod.mk.injEq, true_and]
      constructor
      · rintro (rfl | h)
        · exact Or.inr rfl
        · exact Or.inl h
      · rintro (h | rfl)
        · exact Or.inr h
        · exact Or.inl rfl

/-- Membership in the errors of the parse fold. -/
theorem parse_foldl_mem_errors (ls : List Str) (acc : ParseResult) (x : Str) :
    x ∈ (ls.foldl applyLine acc).errors ↔
      x ∈ acc.errors ∨ ∃ l, l ∈ ls ∧ classifyLine l = some (Cat.err, x) := by
  induction ls generalizing acc with
  | nil => simp
  | cons a as ih =>
    rw [List.foldl_cons, ih, applyLine_mem_errors]
    constructor
    · rintro (⟨hx | ha⟩ | ⟨l, hl, hcl⟩)
      · exact Or.inl hx
      · exact Or.inr ⟨a, List.mem_cons_self a as, ha⟩
      · exact Or.inr ⟨l, List.mem_cons_of_mem a hl, hcl⟩
    · rintro (hx | ⟨l, hl, hcl⟩)
      · exact Or.inl (Or.inl hx)
      · rcases List.mem_cons.mp hl with rfl | hl2
        · exact Or.inl (Or.inr hcl)
        · exact Or.inr ⟨l, hl2, hcl⟩

/-- Membership in the warnings of the parse fold. -/
theorem parse_foldl_mem_warnings (ls : List Str) (acc : ParseResult) (x : Str) :
    x ∈ (ls.foldl applyLine acc).warnings ↔
      x ∈ acc.warnings ∨ ∃ l, l ∈ ls ∧ classifyLine l = some (Cat.warn, x) := by
  induction ls generalizing acc with
  | nil => simp
  | cons a as ih =>
    rw [List.foldl_cons, ih, applyLine_mem_warnings]
    constructor
    · rintro (⟨hx | ha⟩ | ⟨l, hl, hcl⟩)
      · exact Or.inl hx
      · exact Or.inr ⟨a, List.mem_cons_self a as, ha⟩
      · exact Or.inr ⟨l, List.mem_cons_of_mem a hl, hcl⟩
    · rintro (hx | ⟨l, hl, hcl⟩)
      · exact Or.inl (Or.inl hx)
      · rcases List.mem_cons.mp hl with rfl | hl2
        · exact Or.inl (Or.inr hcl)
        · exact Or.inr ⟨l, hl2, hcl⟩

/-- Membership in the notes of the parse fold. -/
theorem parse_foldl_mem_notes (ls : List Str) (acc : ParseResult) (x : Str) :
    x ∈ (ls.foldl applyLine acc).notes ↔
      x ∈ acc.notes ∨ ∃ l, l ∈ ls ∧ classifyLine l = some (Cat.note, x) := by
  induction ls generalizing acc with
  | nil => simp
  | cons a as ih =>
    rw [List.foldl_cons, ih, applyLine_mem_notes]
    constructor
    · rintro (⟨hx | ha⟩ | ⟨l, hl, hcl⟩)
      · exact Or.inl hx
      · exact Or.inr ⟨a, List.mem_cons_self a as, ha⟩
      · exact Or.inr ⟨l, List.mem_cons_of_mem a hl, hcl⟩
    · rintro (hx | ⟨l, hl, hcl⟩)
      · exact Or.inl (Or.inl hx)
      · rcases List.mem_cons.mp hl with rfl | hl2
        · exact Or.inl (Or.inr hcl)
        · exact Or.inr ⟨l, hl2, hcl⟩

/-- C3: parse_build_log deduplicates by full formatted message: its three
collections are duplicate-free, and two logs whose newline-split lines have
the same members (in particular, one repeating a matching line that the
other holds once) parse to the same three collections as sets. -/
theorem C3_dedup_set_semantics (c1 c2 : Str)
    (h12 : ∀ l ∈ List.splitOn '\n' c1, l ∈ List.splitOn '\n' c2)
    (h21 : ∀ l ∈ List.splitOn '\n' c2, l ∈ List.splitOn '\n' c1) :
    ((parse_build_log (some c1)).errors.Nodup ∧
     (parse_build_log (some c1)).warnings.Nodup ∧
     (parse_build_log (some c1)).notes.Nodup) ∧
    ((∀ x, x ∈ (parse_build_log (some c1)).errors ↔
        x ∈ (parse_build_log (some c2)).errors) ∧
     (∀ x, x ∈ (parse_build_log (some c1)).warnings ↔
        x ∈ (parse_build_log (some c2)).warnings) ∧
     (∀ x, x ∈ (parse_build_log (some c1)).notes ↔
        x ∈ (parse_build_log (some c2)).notes)) := by
  have hp : ∀ c : Str, parse_build_log (some c) =
      (List.splitOn '\n' c).foldl applyLine ⟨[], [], []⟩ := fun c => rfl
  constructor
  · rw [hp]
    exact parse_foldl_nodup _ _ List.nodup_nil List.nodup_nil List.nodup_nil
  · refine ⟨fun x => ?_, fun x => ?_, fun x => ?_⟩
    · rw [hp, hp, parse_foldl_mem_errors, parse_foldl_mem_errors]
      constructor
      · rintro (hx | ⟨l, hl, hcl⟩)
        · cases hx
        · exact Or.inr ⟨l, h12 l hl, hcl⟩
      · rintro (hx | ⟨l, hl, hcl⟩)
        · cases hx
        · exact Or.inr ⟨l, h21 l hl, hcl⟩
    · rw [hp, hp, parse_foldl_mem_warnings, parse_foldl_mem_warnings]
      constructor
      · rintro (hx | ⟨l, hl, hcl⟩)
        · cases hx
        · exact Or.inr ⟨l, h12 l hl, hcl⟩
      · rintro (hx | ⟨l, hl, hcl⟩)
        · cases hx
        · exact Or.inr ⟨l, h21 l hl, hcl⟩
    · rw [hp, hp, parse_foldl_mem_notes, parse_foldl_mem_notes]
      constructor
      · rintro (hx | ⟨l, hl, hcl⟩)
        · cases hx
        · exact Or.inr ⟨l, h12 l hl, hcl⟩
      · rintro (hx | ⟨l, hl, hcl⟩)
        · cases hx
        · exact Or.inr ⟨l, h21 l hl, hcl⟩

/-- Witness for C3: a log repeating its note line twice parses to the same
notes, as sets, as the log holding it once. -/
theorem C3_dedup_set_semantics_witness :
    (parse_build_log (some (("note: a\nnote: a").toList))).notes.Nodup ∧
    ((("a").toList) ∈ (parse_build_log (some (("note: a\nnote: a").toList))).notes ↔
      (("a").toList) ∈ (parse_build_log (some (("note: a").toList))).notes) := by
  have h := C3_dedup_set_semantics (("note: a\nnote: a").toList) (("note: a").toList)
    (by decide) (by decide)
  exact ⟨h.1.2.2, h.2.2.2 (("a").toList)⟩

/-- C5 counterexample: a line whose lowercase form contains the warning tag
and matches none of the higher-precedence error patterns, on which
parse_build_log nevertheless adds no warning entry, because the warning
branch also requires its located file line column pattern to match. -/
theorem C5_counterexample :
    hasWarnTag (("warning: unable to attach DB").toList) = true ∧
    hasErrTag (("warning: unable to attach DB").toList) = false ∧
    guardSwift (("warning: unable to attach DB").toList) = false ∧
    guardObjc (("warning: unable to attach DB").toList) = false ∧
    heurMatch (("warning: unable to attach DB").toList) = false ∧
    classifyLine (("warning: unable to attach DB").toList) = none ∧
    (parse_build_log (some (("warning: unable to attach DB").toList))).warnings = [] := by
  decide

/-- C5 amended: a line whose lowercase form contains the warning tag, on
which neither the explicit error tag nor the length-guarded Swift or
Objective-C location conditions fire, and which moreover matches the located
warning pattern, is classified as a warning with one formatted entry. -/
theorem C5_amended_warning (line g1 g2 : Str)
    (h1 : hasErrTag line = false)
    (h2 : guardSwift line = false)
    (h3 : guardObjc line = false)
    (h4 : hasWarnTag line = true)
    (h5 : searchLocTag (("warning:").toList) line = some (g1, g2)) :
    classifyLine line = some (Cat.warn, g1 ++ ':' :: strip g2) ∧
    ∀ acc : ParseResult, applyLine acc line =
      { acc with warnings := insertNew (g1 ++ ':' :: strip g2) acc.warnings } := by
  have hcl : classifyLine line = some (Cat.warn, g1 ++ ':' :: strip g2) := by
    simp only [classifyLine, h1, h2, h3, h4, Bool.false_eq_true, if_false, if_true]
    unfold warnBranch
    rw [h5]
    rfl
  refine ⟨hcl, fun acc => ?_⟩
  unfold applyLine
  rw [hcl]

/-- Witness for the amended C5 at a concrete located warning line. -/
theorem C5_amended_warning_witness :
    classifyLine (("/a.swift:10:5: warning: unused x").toList) =
      some (Cat.warn, ("/a.swift:unused x").toList) := by
  have h := C5_amended_warning (("/a.swift:10:5: warning: unused x").toList)
    (("/a.swift").toList) (("unused x").toList)
    (by decide) (by decide) (by decide) (by decide) (by decide)
  exact h.1.trans (by decide)

/-- C7: the build workflow runs open, trigger, wait, parse in that order,
and a failing earlier step (open fails, trigger fails, or completion is not
detected within the timeout) makes build return False without running any
later step, in particular without parsing results. -/
theorem C7_workflow_order (w : BuildWorld) :
    List.Sublist (build w).2
      [Step.openStep, Step.triggerStep, Step.waitStep, Step.parseStep] ∧
    (w.frontmostIsXcode = false → w.openOk = false →
      build w = (false, [Step.openStep])) ∧
    ((w.frontmostIsXcode = true ∨ w.openOk = true) → w.triggerOk = false →
      (build w).1 = false ∧ Step.waitStep ∉ (build w).2 ∧
        Step.parseStep ∉ (build w).2) ∧
    ((w.frontmostIsXcode = true ∨ w.openOk = true) → w.triggerOk = true →
      (wait_for_build_completion w.timeout w.epoch0 w.trace w.readLog).completed = false →
      (build w).1 = false ∧ Step.parseStep ∉ (build w).2 ∧
        Step.waitStep ∈ (build w).2) := by
  refine ⟨?_, ?_, ?_, ?_⟩
  · cases hf : w.frontmostIsXcode <;> cases ho : w.openOk <;> cases ht : w.triggerOk <;>
      simp only [build, hf, ho, ht, Bool.not_false, Bool.not_true, Bool.false_and,
        Bool.true_and, Bool.and_false, Bool.and_self, Bool.false_eq_true, if_true,
        if_false] <;>
      first
      | decide
      | (cases hc : (wait_for_build_completion w.timeout w.epoch0 w.trace w.readLog).completed <;>
          simp only [hc, Bool.not_false, Bool.not_true, Bool.false_eq_true, if_true,
            if_false] <;>
          first
          | decide
          | (cases htr2 :
                w.trace (wait_for_build_completion w.timeout w.epoch0 w.trace w.readLog).tEnd <;>
              simp only [] <;> decide))
  · intro hf ho
    simp only [build, hf, ho, Bool.not_false, Bool.true_and, if_true]
  · intro hopen ht
    have hcond : (!w.frontmostIsXcode && !w.openOk) = false := by
      rcases hopen with hf | ho
      · rw [hf]
        rfl
      · rw [ho]
        simp
    simp only [build, hcond, Bool.false_eq_true, if_false, ht, Bool.not_false, if_true]
    cases hf : w.frontmostIsXcode <;> simp
  · intro hopen ht hc
    have hcond : (!w.frontmostIsXcode && !w.openOk) = false := by
      rcases hopen with hf | ho
      · rw [hf]
        rfl
      · rw [ho]
        simp
    simp only [build, hcond, Bool.false_eq_true, if_false, ht, Bool.not_true, hc,
      Bool.not_false, if_true]
    cases hf : w.frontmostIsXcode <;> simp

/-- Witness for C7 at a concrete world whose open step fails. -/
theorem C7_workflow_order_witness :
    build ⟨false, false, false, 0, 0, fun _ => none, fun _ => none⟩ =
      (false, [Step.openStep]) :=
  (C7_workflow_order ⟨false, false, false, 0, 0, fun _ => none, fun _ => none⟩).2.1
    rfl rfl

/-- Unfolding equation of the stability loop. -/
theorem phase2Aux_eq (trace : Nat → Option LogObs) (readLog : Str → Option Str)
    (timeout u lastModified stableCount : Nat) :
    phase2Aux trace readLog timeout u lastModified stableCount =
      if u < timeout then
        match trace u with
        | some cur =>
          if cur.mtime == lastModified then
            (if 3 ≤ stableCount + 1 then
              ⟨true, ((parse_build_log (readLog cur.path)).errors).isEmpty, u⟩
            else phase2Aux trace readLog timeout (u + 1) lastModified (stableCount + 1))
          else phase2Aux trace readLog timeout (u + 1) cur.mtime 0
        | none => phase2Aux trace readLog timeout (u + 1) lastModified stableCount
      else ⟨false, false, u⟩ := by
  rw [phase2Aux]

/-- One step of the stability loop when the poll yields a log. -/
theorem phase2_branch_some (trace : Nat → Option LogObs) (readLog : Str → Option Str)
    (timeout u last s m : Nat) (p : Str)
    (hu : u < timeout) (htr : trace u = some ⟨p, m⟩) :
    phase2Aux trace readLog timeout u last s =
      if (m == last) = true then
        (if 3 ≤ s + 1 then
          ⟨true, ((parse_build_log (readLog p)).errors).isEmpty, u⟩
        else phase2Aux trace readLog timeout (u + 1) last (s + 1))
      else phase2Aux trace readLog timeout (u + 1) m 0 := by
  rw [phase2Aux_eq, if_pos hu, htr]

/-- The loop returns completed at u when the poll repeats the tracked
modification time and the incremented stable count reaches three. -/
theorem phase2_hit (trace : Nat → Option LogObs) (readLog : Str → Option Str)
    (timeout u s m : Nat) (p : Str)
    (hu : u < timeout) (htr : trace u = some ⟨p, m⟩) (hs : 3 ≤ s + 1) :
    phase2Aux trace readLog timeout u m s =
      ⟨true, ((parse_build_log (readLog p)).errors).isEmpty, u⟩ := by
  rw [phase2_branch_some trace readLog timeout u m s m p hu htr]
  rw [if_pos (beq_self_eq_true m), if_pos hs]

/-- The loop increments the stable count when the modification time repeats
but the count is still below three. -/
theorem phase2_step_same (trace : Nat → Option LogObs) (readLog : Str → Option Str)
    (timeout u s m : Nat) (p : Str)
    (hu : u < timeout) (htr : trace u = some ⟨p, m⟩) (hs : ¬ 3 ≤ s + 1) :
    phase2Aux trace readLog timeout u m s =
      phase2Aux trace readLog timeout (u + 1) m (s + 1) := by
  rw [phase2_branch_some trace readLog timeout u m s m p hu htr]
  rw [if_pos (beq_self_eq_true m), if_neg hs]

/-- The loop resets the stable count on a new modification time. -/
theorem phase2_new (trace : Nat → Option LogObs) (readLog : Str → Option Str)
    (timeout u last s m : Nat) (p : Str)
    (hu : u < timeout) (htr : trace u = some ⟨p, m⟩) (hne : (m == last) = false) :
    phase2Aux trace readLog timeout u last s =
      phase2Aux trace readLog timeout (u + 1) m 0 := by
  rw [phase2_branch_some trace readLog timeout u last s m p hu htr]
  rw [if_neg (by rw [hne]; exact Bool.false_ne_true)]

/-- The loop keeps its state when the poll yields no log. -/
theorem phase2_skip (trace : Nat → Option LogObs) (readLog : Str → Option Str)
    (timeout u last s : Nat)
    (hu : u < timeout) (htr : trace u = none) :
    phase2Aux trace readLog timeout u last s =
      phase2Aux trace readLog timeout (u + 1) last s := by
  rw [phase2Aux_eq, if_pos hu, htr]

/-- After a poll at t + 1 whose modification time m is already tracked, the
loop completes by t + 3 when the polls at t + 2 and t + 3 repeat m. -/
theorem phase2_tail (trace : Nat → Option LogObs) (readLog : Str → Option Str)
    (timeout t m : Nat)
    (hwin : t + 3 < timeout)
    (h1 : ∃ p, trace (t + 1) = some ⟨p, m⟩)
    (h2 : ∃ p, trace (t + 2) = some ⟨p, m⟩)
    (h3 : ∃ p, trace (t + 3) = some ⟨p, m⟩) :
    ∀ s, (phase2Aux trace readLog timeout (t + 1) m s).completed = true ∧
      (phase2Aux trace readLog timeout (t + 1) m s).tEnd ≤ t + 3 := by
  intro s
  obtain ⟨p1, hp1⟩ := h1
  obtain ⟨p2, hp2⟩ := h2
  obtain ⟨p3, hp3⟩ := h3
  by_cases hs1 : 3 ≤ s + 1
  · rw [phase2_hit trace readLog timeout (t + 1) s m p1 (by omega) hp1 hs1]
    refine ⟨rfl, ?_⟩
    show t + 1 ≤ t + 3
    omega
  · rw [phase2_step_same trace readLog timeout (t + 1) s m p1 (by omega) hp1 hs1]
    have e2 : t + 1 + 1 = t + 2 := by omega
    rw [e2]
    by_cases hs2 : 3 ≤ (s + 1) + 1
    · rw [phase2_hit trace readLog timeout (t + 2) (s + 1) m p2 (by omega) hp2 hs2]
      refine ⟨rfl, ?_⟩
      show t + 2 ≤ t + 3
      omega
    · rw [phase2_step_same trace readLog timeout (t + 2) (s + 1) m p2 (by omega) hp2 hs2]
      have e3 : t + 2 + 1 = t + 3 := by omega
      rw [e3]
      have hs3 : 3 ≤ (s + 1 + 1) + 1 := by omega
      rw [phase2_hit trace readLog timeout (t + 3) (s + 1 + 1) m p3 (by omega) hp3 hs3]
      exact ⟨rfl, Nat.le_refl _⟩

/-- From any second at or before t and any loop state, the stability loop
completes by t + 3 when the four polls at t, t + 1, t + 2, t + 3 agree on a
modification time within the timeout. -/
theorem phase2_reach (trace : Nat → Option LogObs) (readLog : Str → Option Str)
    (timeout t m : Nat)
    (hwin : t + 3 < timeout)
    (hw : ∀ i, i ≤ 3 → ∃ p, trace (t + i) = some ⟨p, m⟩) :
    ∀ k u last s, u + k = t →
      (phase2Aux trace readLog timeout u last s).completed = true ∧
      (phase2Aux trace readLog timeout u last s).tEnd ≤ t + 3 := by
  intro k
  induction k with
  | zero =>
    intro u last s hu
    have hut : u = t := by omega
    subst hut
    obtain ⟨p0, hp0⟩ := hw 0 (by omega)
    rw [Nat.add_zero] at hp0
    have hul : u < timeout := by omega
    by_cases hbe : (m == last) = true
    · have hml : m = last := eq_of_beq hbe
      subst hml
      by_cases hs1 : 3 ≤ s + 1
      · rw [phase2_hit trace readLog timeout u s m p0 hul hp0 hs1]
        refine ⟨rfl, ?_⟩
        show u ≤ u + 3
        omega
      · rw [phase2_step_same trace readLog timeout u s m p0 hul hp0 hs1]
        exact phase2_tail trace readLog timeout u m hwin
          (hw 1 (by omega)) (hw 2 (by omega)) (hw 3 (by omega)) (s + 1)
    · rw [Bool.not_eq_true] at hbe
      rw [phase2_new trace readLog timeout u last s m p0 hul hp0 hbe]
      exact phase2_tail trace readLog timeout u m hwin
        (hw 1 (by omega)) (hw 2 (by omega)) (hw 3 (by omega)) 0
  | succ k ih =>
    intro u last s hu
    have hul : u < timeout := by omega
    cases htr : trace u with
    | none =>
      rw [phase2_skip trace readLog timeout u last s hul htr]
      exact ih (u + 1) last s (by omega)
    | some cur =>
      obtain ⟨p, mm⟩ := cur
      by_cases hbe : (mm == last) = true
      · have hml : mm = last := eq_of_beq hbe
        subst hml
        by_cases hs1 : 3 ≤ s + 1
        · rw [phase2_hit trace readLog timeout u s mm p hul htr hs1]
          refine ⟨rfl, ?_⟩
          show u ≤ t + 3
          omega
        · rw [phase2_step_same trace readLog timeout u s mm p hul htr hs1]
          exact ih (u + 1) mm (s + 1) (by omega)
      · rw [Bool.not_eq_true] at hbe
        rw [phase2_new trace readLog timeout u last s mm p hul htr hbe]
        exact ih (u + 1) mm 0 (by omega)

/-- C1: once the first loop has observed a build start before the timeout,
four polls at t, t + 1, t + 2, t + 3 within the timeout that agree on the
newest log's modification time (three consecutive one-second samples seeing
it unchanged) make wait_for_build_completion signal completion, no later
than the end of that window. -/
theorem C1_stable_polls_complete (timeout epoch0 t b m : Nat)
    (trace : Nat → Option LogObs) (readLog : Str → Option Str)
    (hb : (List.range timeout).find?
        (fun u => buildStarted ((trace 0).map LogObs.path) epoch0 (trace u)) = some b)
    (hbt : b ≤ t) (hwin : t + 3 < timeout)
    (hw : ∀ i, i ≤ 3 → ∃ p, trace (t + i) = some ⟨p, m⟩) :
    (wait_for_build_completion timeout epoch0 trace readLog).completed = true ∧
    (wait_for_build_completion timeout epoch0 trace readLog).tEnd ≤ t + 3 := by
  have hwait : wait_for_build_completion timeout epoch0 trace readLog =
      phase2Aux trace readLog timeout b 0 0 := by
    unfold wait_for_build_completion
    rw [hb]
  rw [hwait]
  exact phase2_reach trace readLog timeout t m hwin hw (t - b) b 0 0 (by omega)

/-- Witness for C1 at a concrete trace that is stable from the start. -/
theorem C1_stable_polls_complete_witness :
    (wait_for_build_completion 4 0
      (fun _ => some ⟨("log.xcactivitylog").toList, 5⟩)
      (fun _ => none)).completed = true :=
  (C1_stable_polls_complete 4 0 0 0 5
    (fun _ => some ⟨("log.xcactivitylog").toList, 5⟩) (fun _ => none)
    (by decide) (Nat.le_refl 0) (by decide)
    (fun i _ => ⟨("log.xcactivitylog").toList, rfl⟩)).1

end XcodeRemote
